import Mathlib

/-!
Verification development for the coerce_pattern crate (src/lib.rs).

The crate provides two compile-time source transformations:

  - assert_pattern with input "expression , pattern", and
  - coerce_pattern with input "expression , pattern , result",

each parsed from a flat token sequence and rewritten into a two-armed
match construct whose second arm is an unconditional wildcard that
panics with a fixed, form-specific diagnostic string.

The host fragment grammars (syn::Expr via Expr::parse and syn::Pat via
Pat::parse_multi) are external collaborators of the crate.  They are
modelled here by one small fragment grammar, Term, parameterized by the
infix operator token used at the binary node: the plus token for
expressions and the vertical-bar token for multi-patterns.  The model
covers literals, identifiers, the underscore, constructor applications,
parenthesized tuples and the infix operator, and the parsers stop at a
top-level comma, exactly as the delegated syn parsers do.
-/

/-- Tokens of the host token stream, as far as this development needs
them: the comma delimiter, brackets, the fat arrow, the two infix
operator tokens, the underscore, the bang, the match keyword,
identifiers and literals. -/
inductive Tok where
  | comma
  | lparen
  | rparen
  | lbrace
  | rbrace
  | fatArrow
  | plus
  | pipe
  | underscore
  | bang
  | kwMatch
  | ident (s : String)
  | natTok (n : Nat)
  | strTok (s : String)
  deriving DecidableEq, Repr

/-- Model of the host fragment grammars.  An expression instantiates
the binary node with the plus token; a multi-pattern instantiates it
with the vertical-bar token (an or-pattern). -/
inductive Term where
  | litN (n : Nat)
  | litS (s : String)
  | name (x : String)
  | hole
  | con (f : String) (args : List Term)
  | tup (args : List Term)
  | bin (a b : Term)
  deriving Repr

mutual

/-- Token emission of a fragment, with the infix operator token op at
binary nodes.  This models the ToTokens behaviour of syn::Expr and
syn::Pat, which the crate delegates to unmodified. -/
def termToks (op : Tok) : Term → List Tok
  | .litN n => [.natTok n]
  | .litS s => [.strTok s]
  | .name x => [.ident x]
  | .hole => [.underscore]
  | .con f args => .ident f :: .lparen :: (termToksList op args ++ [.rparen])
  | .tup args => .lparen :: (termToksList op args ++ [.rparen])
  | .bin a b => termToks op a ++ op :: termToks op b

/-- Token emission of a comma-separated fragment list (constructor or
tuple arguments). -/
def termToksList (op : Tok) : List Term → List Tok
  | [] => []
  | [e] => termToks op e
  | e :: e2 :: es => termToks op e ++ .comma :: termToksList op (e2 :: es)

end

mutual

/-- Size measure of a fragment, used to bound the fuel the
recursive-descent parser needs. -/
def sizeT : Term → Nat
  | .litN _ => 1
  | .litS _ => 1
  | .name _ => 1
  | .hole => 1
  | .con _ args => sizeL args + 2
  | .tup args => sizeL args + 2
  | .bin a b => sizeT a + sizeT b + 1

/-- Size measure of a fragment list. -/
def sizeL : List Term → Nat
  | [] => 1
  | e :: es => sizeT e + sizeL es + 1

end

mutual

/-- Fuel-based recursive-descent parser for one atomic fragment:
a literal, an identifier (a plain name, or a constructor application
when immediately followed by an opening parenthesis), the underscore,
or a parenthesized tuple. -/
def parseTermAtom (op : Tok) : Nat → List Tok → Option (Term × List Tok)
  | 0, _ => none
  | _ + 1, .natTok n :: r => some (.litN n, r)
  | _ + 1, .strTok s :: r => some (.litS s, r)
  | _ + 1, .underscore :: r => some (.hole, r)
  | fuel + 1, .ident f :: r =>
    match r with
    | .lparen :: r2 => (parseTermList op fuel r2).map fun p => (.con f p.1, p.2)
    | _ => some (.name f, r)
  | fuel + 1, .lparen :: r => (parseTermList op fuel r).map fun p => (.tup p.1, p.2)
  | _ + 1, _ => none

/-- Fuel-based recursive-descent parser for a full fragment: an atom,
optionally followed by the infix operator token and another fragment.
It stops at a top-level comma, exactly as the delegated syn parsers
do. -/
def parseTerm (op : Tok) : Nat → List Tok → Option (Term × List Tok)
  | 0, _ => none
  | fuel + 1, ts =>
    (parseTermAtom op fuel ts).bind fun p =>
      match p.2 with
      | t :: r2 =>
        if t = op then
          (parseTerm op fuel r2).map fun q => (.bin p.1 q.1, q.2)
        else
          some p
      | [] => some p

/-- Fuel-based parser for a comma-separated fragment list terminated by
a closing parenthesis (which it consumes): either the list is empty and
the closing parenthesis is immediate, or it is nonempty. -/
def parseTermList (op : Tok) : Nat → List Tok → Option (List Term × List Tok)
  | 0, _ => none
  | _ + 1, .rparen :: r => some ([], r)
  | fuel + 1, ts => parseTermListNE op fuel ts

/-- Fuel-based parser for a nonempty comma-separated fragment list
terminated by a closing parenthesis (which it consumes). -/
def parseTermListNE (op : Tok) : Nat → List Tok → Option (List Term × List Tok)
  | 0, _ => none
  | fuel + 1, ts =>
    (parseTerm op fuel ts).bind fun p =>
      match p.2 with
      | .comma :: r2 => (parseTermListNE op fuel r2).map fun q => (p.1 :: q.1, q.2)
      | .rparen :: r2 => some ([p.1], r2)
      | _ => none

end

/-- Continuation of the atom parser after an identifier, as a named
function: an opening parenthesis makes a constructor application,
anything else leaves a plain name.  The shape lemmas below identify it
with the nested match inside parseTermAtom. -/
def parseAfterIdent (op : Tok) (fuel : Nat) (f : String) : List Tok → Option (Term × List Tok)
  | .lparen :: r2 => (parseTermList op fuel r2).map fun p => (.con f p.1, p.2)
  | r => some (.name f, r)

/-- Continuation of the fragment parser after an atom, as a named
function: when the next token is the infix operator, parse another
fragment and build a binary node; otherwise the atom alone is the
fragment. -/
def parseBinTail (op : Tok) (fuel : Nat) (a : Term) : List Tok → Option (Term × List Tok)
  | t :: r2 =>
    if t = op then
      (parseTerm op fuel r2).map fun q => (.bin a q.1, q.2)
    else
      some (a, t :: r2)
  | [] => some (a, [])

/-- Continuation of the nonempty list parser after one element, as a
named function: a comma demands a further nonempty list, a closing
parenthesis ends the list, anything else is a parse failure. -/
def parseListTail (op : Tok) (fuel : Nat) (e : Term) : List Tok → Option (List Term × List Tok)
  | .comma :: r2 => (parseTermListNE op fuel r2).map fun q => (e :: q.1, q.2)
  | .rparen :: r2 => some ([e], r2)
  | _ => none

/-- Runtime values of the host language, as far as the generated code
needs them: numbers, strings, constructor applications and tuples.
The empty tuple is the unit value of an empty block. -/
inductive Value where
  | natV (n : Nat)
  | strV (s : String)
  | conV (f : String) (args : List Value)
  | tupV (args : List Value)
  deriving Repr

/-- Lookup in an evaluation environment; the most recent binding of a
variable shadows older ones. -/
def lookupEnv : List (String × Value) → String → Option Value
  | [], _ => none
  | (y, v) :: rest, x => if x = y then some v else lookupEnv rest x

mutual

/-- Structural pattern matching of the host language: a pattern either
fails on a value or succeeds and produces the bindings it introduces.
The binary node is the or-pattern: the first matching alternative
provides the bindings. -/
def matchT : Term → Value → Option (List (String × Value))
  | .hole, _ => some []
  | .name x, v => some [(x, v)]
  | .litN n, .natV m => if n = m then some [] else none
  | .litN _, _ => none
  | .litS s, .strV t => if s = t then some [] else none
  | .litS _, _ => none
  | .con f ps, .conV g vs => if f = g then matchTList ps vs else none
  | .con _ _, _ => none
  | .tup ps, .tupV vs => matchTList ps vs
  | .tup _, _ => none
  | .bin p q, v =>
    match matchT p v with
    | some bnds => some bnds
    | none => matchT q v

/-- Structural matching of a pattern list against a value list;
bindings accumulate left to right. -/
def matchTList : List Term → List Value → Option (List (String × Value))
  | [], [] => some []
  | p :: ps, v :: vs =>
    (matchT p v).bind fun b => (matchTList ps vs).map fun b2 => b ++ b2
  | _, _ => none

end

/-- Runtime outcome of evaluating generated code that does not produce
a value: a panic with its diagnostic message, or a stuck evaluation
(an unbound name, an ill-typed operation). -/
inductive RtErr where
  | panicked (msg : String)
  | stuck
  deriving Repr

mutual

/-- Evaluation of an expression fragment in an environment.  The
binary node is addition of numbers.  The underscore is not a value
expression and is stuck. -/
def evalT (env : List (String × Value)) : Term → Except RtErr Value
  | .litN n => .ok (.natV n)
  | .litS s => .ok (.strV s)
  | .name x =>
    match lookupEnv env x with
    | some v => .ok v
    | none => .error .stuck
  | .hole => .error .stuck
  | .con f args => (evalTList env args).map fun vs => .conV f vs
  | .tup args => (evalTList env args).map fun vs => .tupV vs
  | .bin a b =>
    (evalT env a).bind fun va =>
      (evalT env b).bind fun vb =>
        match va, vb with
        | .natV m, .natV n => .ok (.natV (m + n))
        | _, _ => .error .stuck

/-- Evaluation of an expression list, left to right, propagating the
first failure. -/
def evalTList (env : List (String × Value)) : List Term → Except RtErr (List Value)
  | [] => .ok []
  | e :: es => (evalT env e).bind fun v => (evalTList env es).map fun vs => v :: vs

end

/-- Wrapper for one parsed value-producing fragment; models the struct
Expression(syn::Expr) of src/lib.rs. -/
structure Expression where
  val : Term

/-- Wrapper for one parsed multi-pattern fragment; models the struct
Target(syn::Pat) of src/lib.rs. -/
structure Target where
  val : Term

/-- Full input of the coerce_pattern transformation: expression, target
pattern and result expression, in that order; models the struct
CoercePatternInput of src/lib.rs. -/
structure CoercePatternInput where
  expression : Expression
  target : Target
  result : Expression

/-- Full input of the assert_pattern transformation: expression and
target pattern, in that order; models the struct AssertPatternInput of
src/lib.rs. -/
structure AssertPatternInput where
  expression : Expression
  target : Target

/-- Infix operator token of the expression grammar instance. -/
def exprOp : Tok := .plus

/-- Infix operator token of the multi-pattern grammar instance. -/
def patOp : Tok := .pipe

/-- Fuel budget that is always sufficient for the given token list
(established by the fuel bound lemmas below). -/
def topFuel (ts : List Tok) : Nat := 3 * ts.length + 3

/-- Parse of an Expression: delegation to the expression instance of
the fragment grammar, as the Parse impl of Expression delegates to
syn::Expr::parse. -/
def Expression.parse (ts : List Tok) : Option (Expression × List Tok) :=
  (parseTerm exprOp (topFuel ts) ts).map fun p => (⟨p.1⟩, p.2)

/-- Parse of a Target: delegation to the multi-pattern instance of the
fragment grammar, as the Parse impl of Target delegates to
syn::Pat::parse_multi. -/
def Target.parse (ts : List Tok) : Option (Target × List Tok) :=
  (parseTerm patOp (topFuel ts) ts).map fun p => (⟨p.1⟩, p.2)

/-- Token emission of an Expression, delegated unmodified. -/
def Expression.toTokens (e : Expression) : List Tok := termToks exprOp e.val

/-- Token emission of a Target, delegated unmodified. -/
def Target.toTokens (t : Target) : List Tok := termToks patOp t.val

/-- Consume one comma delimiter token, as input.parse::<Token![,]>()
does. -/
def expectComma : List Tok → Option (List Tok)
  | .comma :: r => some r
  | _ => none

/-- Parse of the assert_pattern input: expression, comma, target, in
that order; models the Parse impl of AssertPatternInput. -/
def AssertPatternInput.parse (ts : List Tok) : Option (AssertPatternInput × List Tok) :=
  (Expression.parse ts).bind fun pe =>
    (expectComma pe.2).bind fun r2 =>
      (Target.parse r2).map fun pt =>
        ({ expression := pe.1, target := pt.1 }, pt.2)

/-- Parse of the coerce_pattern input: expression, comma, target,
comma, result, in that order; models the Parse impl of
CoercePatternInput. -/
def CoercePatternInput.parse (ts : List Tok) : Option (CoercePatternInput × List Tok) :=
  (Expression.parse ts).bind fun pe =>
    (expectComma pe.2).bind fun r2 =>
      (Target.parse r2).bind fun pt =>
        (expectComma pt.2).bind fun r4 =>
          (Expression.parse r4).map fun pr =>
            ({ expression := pe.1, target := pt.1, result := pr.1 }, pr.2)

/-- Diagnostic string of the wildcard arm generated by assert_pattern,
exactly as in src/lib.rs. -/
def assertPatternPanicMessage : String :=
  "expression didn\x27t match target pattern in assert_pattern"

/-- Diagnostic string of the wildcard arm generated by coerce_pattern,
exactly as in src/lib.rs. -/
def coercePatternPanicMessage : String :=
  "expression didn\x27t match target pattern in coerce_pattern"

/-- Tokens of the generated panic invocation carrying the diagnostic
string. -/
def panicCallToks (msg : String) : List Tok :=
  [.ident "panic", .bang, .lparen, .strTok msg, .rparen]

/-- Code generation of coerce_pattern, token for token as the quote in
the ToTokens impl of CoercePatternInput:
match expression { target => { result } _ => panic with message }. -/
def CoercePatternInput.toTokens (i : CoercePatternInput) : List Tok :=
  .kwMatch :: (i.expression.toTokens ++
    .lbrace :: (i.target.toTokens ++
      .fatArrow :: .lbrace :: (i.result.toTokens ++
        .rbrace :: .underscore :: .fatArrow ::
          (panicCallToks coercePatternPanicMessage ++ [.rbrace]))))

/-- Code generation of assert_pattern, token for token as the quote in
the ToTokens impl of AssertPatternInput:
match expression { target => { } _ => panic with message }. -/
def AssertPatternInput.toTokens (i : AssertPatternInput) : List Tok :=
  .kwMatch :: (i.expression.toTokens ++
    .lbrace :: (i.target.toTokens ++
      .fatArrow :: .lbrace :: .rbrace :: .underscore :: .fatArrow ::
        (panicCallToks assertPatternPanicMessage ++ [.rbrace])))

/-- Body of a generated match arm: the empty block, a block holding
the result expression, or the panic invocation. -/
inductive ArmBody where
  | blockEmpty
  | blockExpr (e : Term)
  | panicWith (msg : String)
  deriving Repr

/-- Structured view of the generated output construct: a match with a
scrutinee and a list of arms, each a pattern with a body. -/
structure GenMatch where
  scrutinee : Term
  arms : List (Term × ArmBody)

/-- Structured view of the construct generated by coerce_pattern. -/
def CoercePatternInput.toMatch (i : CoercePatternInput) : GenMatch :=
  { scrutinee := i.expression.val
    arms := [(i.target.val, .blockExpr i.result.val),
             (.hole, .panicWith coercePatternPanicMessage)] }

/-- Structured view of the construct generated by assert_pattern. -/
def AssertPatternInput.toMatch (i : AssertPatternInput) : GenMatch :=
  { scrutinee := i.expression.val
    arms := [(i.target.val, .blockEmpty),
             (.hole, .panicWith assertPatternPanicMessage)] }

/-- Tokens of one generated match arm. -/
def armToks (a : Term × ArmBody) : List Tok :=
  termToks patOp a.1 ++ .fatArrow ::
    (match a.2 with
     | .blockEmpty => [.lbrace, .rbrace]
     | .blockExpr e => .lbrace :: (termToks exprOp e ++ [.rbrace])
     | .panicWith msg => panicCallToks msg)

/-- Tokens of a structured generated match construct. -/
def genMatchToks (g : GenMatch) : List Tok :=
  .kwMatch :: (termToks exprOp g.scrutinee ++
    .lbrace :: g.arms.foldr (fun a acc => armToks a ++ acc) [.rbrace])

/-- Evaluation of a generated arm body in an environment. -/
def evalBody (env : List (String × Value)) : ArmBody → Except RtErr Value
  | .blockEmpty => .ok (.tupV [])
  | .blockExpr e => evalT env e
  | .panicWith msg => .error (.panicked msg)

/-- Evaluation of the arms of a generated match against the already
computed scrutinee value: the first arm whose pattern matches runs its
body with the bindings of the pattern in scope, shadowing the outer
environment. -/
def evalArms (env : List (String × Value)) (v : Value) : List (Term × ArmBody) → Except RtErr Value
  | [] => .error .stuck
  | (p, b) :: rest =>
    match matchT p v with
    | some bnds => evalBody (bnds ++ env) b
    | none => evalArms env v rest

/-- Evaluation of a generated match construct: the scrutinee is
evaluated once, then its value is dispatched over the arms. -/
def evalGenMatch (env : List (String × Value)) (g : GenMatch) : Except RtErr Value :=
  (evalT env g.scrutinee).bind fun v => evalArms env v g.arms

/-- Compile-time failure of the transformation; models the
syn SyntaxError surfaced by parse_macro_input. -/
inductive ParseErr where
  | parseErr
  deriving DecidableEq, Repr

/-- Parse requiring the whole input to be consumed, as
parse_macro_input does: any leftover token is a compile-time error. -/
def parseWhole {α : Type} (p : List Tok → Option (α × List Tok)) (ts : List Tok) : Except ParseErr α :=
  match p ts with
  | some (a, []) => .ok a
  | _ => .error .parseErr

/-- The assert_pattern transformation entry point of src/lib.rs:
parse the whole input as an AssertPatternInput, then emit its tokens;
on a parse failure no output tokens are produced. -/
def assert_pattern (ts : List Tok) : Except ParseErr (List Tok) :=
  (parseWhole AssertPatternInput.parse ts).map AssertPatternInput.toTokens

/-- The coerce_pattern transformation entry point of src/lib.rs. -/
def coerce_pattern (ts : List Tok) : Except ParseErr (List Tok) :=
  (parseWhole CoercePatternInput.parse ts).map CoercePatternInput.toTokens

/-- Tokens of the assert_pattern output that follow the scrutinee:
they are a function of the target alone, so the expression tokens are
inserted in exactly one place of the output. -/
def assertTailToks (t : Target) : List Tok :=
  .lbrace :: (t.toTokens ++
    .fatArrow :: .lbrace :: .rbrace :: .underscore :: .fatArrow ::
      (panicCallToks assertPatternPanicMessage ++ [.rbrace]))

/-- Tokens of the coerce_pattern output that follow the scrutinee:
they are a function of the target and the result alone, so the
expression tokens are inserted in exactly one place of the output. -/
def coerceTailToks (t : Target) (res : Expression) : List Tok :=
  .lbrace :: (t.toTokens ++
    .fatArrow :: .lbrace :: (res.toTokens ++
      .rbrace :: .underscore :: .fatArrow ::
        (panicCallToks coercePatternPanicMessage ++ [.rbrace])))

/-- Property of an infix operator token instantiating the fragment
grammar: it is one of the two operator tokens actually used. -/
def goodOp (op : Tok) : Prop := op = Tok.plus ∨ op = Tok.pipe

/-- Property of a fragment that is not a binary node. -/
def notBin : Term → Prop
  | .bin _ _ => False
  | _ => True

/-- Round-trip statement for atomic fragments: re-parsing the emitted
tokens of an atomic fragment, followed by any continuation not opening
a parenthesis, consumes exactly the emitted tokens and yields a
fragment with the same tokens. -/
def StAtom (op : Tok) (E : Term) : Prop :=
  ∀ fuel rest, sizeT E ≤ fuel → notBin E → rest.head? ≠ some Tok.lparen →
    ∃ E2, parseTermAtom op fuel (termToks op E ++ rest) = some (E2, rest) ∧
      termToks op E2 = termToks op E

/-- Grafting statement: if the parser consumes a fragment from rest,
then on the emitted tokens of E followed by the operator and rest it
consumes a fragment whose tokens are those of E, the operator, and the
fragment from rest. -/
def StGraft (op : Tok) (E : Term) : Prop :=
  ∀ fuel rest e2 r, parseTerm op fuel rest = some (e2, r) →
    ∃ E2, parseTerm op (fuel + sizeT E) (termToks op E ++ op :: rest) = some (E2, r) ∧
      termToks op E2 = termToks op E ++ op :: termToks op e2

/-- Round-trip statement for full fragments: re-parsing the emitted
tokens of a fragment, followed by any continuation that does not start
with the operator or an opening parenthesis, consumes exactly the
emitted tokens and yields a fragment with the same tokens. -/
def StTerm (op : Tok) (E : Term) : Prop :=
  ∀ fuel rest, sizeT E < fuel → rest.head? ≠ some op → rest.head? ≠ some Tok.lparen →
    ∃ E2, parseTerm op fuel (termToks op E ++ rest) = some (E2, rest) ∧
      termToks op E2 = termToks op E

/-- Round-trip statement for fragment lists terminated by a closing
parenthesis. -/
def StList (op : Tok) (es : List Term) : Prop :=
  ∀ fuel rest, sizeL es < fuel →
    ∃ es2, parseTermList op fuel (termToksList op es ++ Tok.rparen :: rest) = some (es2, rest) ∧
      termToksList op es2 = termToksList op es

/-- Round-trip statement for nonempty fragment lists terminated by a
closing parenthesis. -/
def StListNE (op : Tok) (es : List Term) : Prop :=
  ∀ fuel rest, es ≠ [] → sizeL es ≤ fuel →
    ∃ es2, parseTermListNE op fuel (termToksList op es ++ Tok.rparen :: rest) = some (es2, rest) ∧
      termToksList op es2 = termToksList op es

theorem sizeT_pos : ∀ E : Term, 1 ≤ sizeT E := by
  intro E
  cases E <;> simp [sizeT]

theorem sizeL_pos : ∀ es : List Term, 1 ≤ sizeL es := by
  intro es
  cases es <;> simp [sizeL]

/-- Emitted fragment tokens are nonempty and never start with a
closing parenthesis, a comma, or either operator token. -/
theorem termToks_head (op : Tok) : ∀ E : Term, ∃ t r, termToks op E = t :: r ∧
    t ≠ Tok.rparen ∧ t ≠ Tok.comma ∧ t ≠ Tok.plus ∧ t ≠ Tok.pipe
  | .litN n => ⟨.natTok n, [], rfl, by simp, by simp, by simp, by simp⟩
  | .litS s => ⟨.strTok s, [], rfl, by simp, by simp, by simp, by simp⟩
  | .name x => ⟨.ident x, [], rfl, by simp, by simp, by simp, by simp⟩
  | .hole => ⟨.underscore, [], rfl, by simp, by simp, by simp, by simp⟩
  | .con f args => ⟨.ident f, _, rfl, by simp, by simp, by simp, by simp⟩
  | .tup args => ⟨.lparen, _, rfl, by simp, by simp, by simp, by simp⟩
  | .bin a b => by
    obtain ⟨t, r, h, h1, h2, h3, h4⟩ := termToks_head op a
    refine ⟨t, r ++ op :: termToks op b, ?_, h1, h2, h3, h4⟩
    rw [termToks, h]
    rfl

theorem termToks_ne_nil (op : Tok) (E : Term) : termToks op E ≠ [] := by
  obtain ⟨t, r, h, -⟩ := termToks_head op E
  simp [h]

theorem termToksList_cons (op : Tok) (e : Term) {es : List Term} (h : es ≠ []) :
    termToksList op (e :: es) = termToks op e ++ .comma :: termToksList op es := by
  cases es with
  | nil => exact absurd rfl h
  | cons e2 es2 => rfl

theorem termToksList_ne_nil (op : Tok) {es : List Term} (h : es ≠ []) :
    termToksList op es ≠ [] := by
  cases es with
  | nil => exact absurd rfl h
  | cons e es2 =>
    cases es2 with
    | nil => simpa [termToksList] using termToks_ne_nil op e
    | cons e2 es3 => simp [termToksList]

theorem parseTermAtom_zero (op : Tok) (ts : List Tok) : parseTermAtom op 0 ts = none := rfl

theorem parseTerm_zero (op : Tok) (ts : List Tok) : parseTerm op 0 ts = none := rfl

theorem parseTermList_zero (op : Tok) (ts : List Tok) : parseTermList op 0 ts = none := rfl

theorem parseTermListNE_zero (op : Tok) (ts : List Tok) : parseTermListNE op 0 ts = none := rfl

/-- Shape lemma: the atom parser after an identifier is the named
continuation parseAfterIdent. -/
theorem parseTermAtom_ident (op : Tok) (fuel : Nat) (f : String) (r : List Tok) :
    parseTermAtom op (fuel + 1) (.ident f :: r) = parseAfterIdent op fuel f r := by
  cases r with
  | nil => rfl
  | cons t r2 => cases t <;> rfl

/-- Shape lemma: one unfolding of the fragment parser through the named
continuation parseBinTail. -/
theorem parseTerm_succ (op : Tok) (fuel : Nat) (ts : List Tok) :
    parseTerm op (fuel + 1) ts =
      (parseTermAtom op fuel ts).bind fun p => parseBinTail op fuel p.1 p.2 := by
  cases h : parseTermAtom op fuel ts with
  | none => simp [parseTerm, h]
  | some p =>
    obtain ⟨a, r⟩ := p
    cases r with
    | nil => simp [parseTerm, h, parseBinTail]
    | cons t r2 => simp [parseTerm, h, parseBinTail]

theorem parseTermList_rparen (op : Tok) (fuel : Nat) (r : List Tok) :
    parseTermList op (fuel + 1) (.rparen :: r) = some ([], r) := rfl

/-- Shape lemma: on input not starting with a closing parenthesis, the
list parser defers to the nonempty list parser. -/
theorem parseTermList_not_rparen (op : Tok) (fuel : Nat) {ts : List Tok}
    (h : ts.head? ≠ some Tok.rparen) :
    parseTermList op (fuel + 1) ts = parseTermListNE op fuel ts := by
  cases ts with
  | nil => rfl
  | cons t r =>
    cases t <;> first | rfl | (exact absurd rfl h)

/-- Shape lemma: one unfolding of the nonempty list parser through the
named continuation parseListTail. -/
theorem parseTermListNE_succ (op : Tok) (fuel : Nat) (ts : List Tok) :
    parseTermListNE op (fuel + 1) ts =
      (parseTerm op fuel ts).bind fun p => parseListTail op fuel p.1 p.2 := by
  cases h : parseTerm op fuel ts with
  | none => simp [parseTermListNE, h]
  | some p =>
    obtain ⟨e, r⟩ := p
    cases r with
    | nil => simp [parseTermListNE, h, parseListTail]
    | cons t r2 => cases t <;> simp [parseTermListNE, h, parseListTail]

theorem parseAfterIdent_lparen (op : Tok) (fuel : Nat) (f : String) (r2 : List Tok) :
    parseAfterIdent op fuel f (.lparen :: r2) =
      (parseTermList op fuel r2).map fun p => (.con f p.1, p.2) := rfl

theorem parseAfterIdent_not_lparen (op : Tok) (fuel : Nat) (f : String) {r : List Tok}
    (h : r.head? ≠ some Tok.lparen) :
    parseAfterIdent op fuel f r = some (.name f, r) := by
  cases r with
  | nil => rfl
  | cons t r2 => cases t <;> first | rfl | (exact absurd rfl h)

theorem parseBinTail_op (op : Tok) (fuel : Nat) (a : Term) (r2 : List Tok) :
    parseBinTail op fuel a (op :: r2) =
      (parseTerm op fuel r2).map fun q => (.bin a q.1, q.2) := by
  simp [parseBinTail]

theorem parseBinTail_not_op (op : Tok) (fuel : Nat) (a : Term) {r : List Tok}
    (h : r.head? ≠ some op) :
    parseBinTail op fuel a r = some (a, r) := by
  cases r with
  | nil => rfl
  | cons t r2 =>
    have ht : t ≠ op := fun he => h (by rw [he]; rfl)
    simp [parseBinTail, ht]

/-- Success of any of the four parsers is preserved when one unit of
fuel is added, with the same result. -/
theorem parse_mono_succ (op : Tok) : ∀ fuel : Nat,
    (∀ ts v, parseTermAtom op fuel ts = some v → parseTermAtom op (fuel + 1) ts = some v) ∧
    (∀ ts v, parseTerm op fuel ts = some v → parseTerm op (fuel + 1) ts = some v) ∧
    (∀ ts v, parseTermList op fuel ts = some v → parseTermList op (fuel + 1) ts = some v) ∧
    (∀ ts v, parseTermListNE op fuel ts = some v → parseTermListNE op (fuel + 1) ts = some v) := by
  intro fuel
  induction fuel with
  | zero =>
    refine ⟨?_, ?_, ?_, ?_⟩ <;> intro ts v h <;> exact Option.noConfusion h
  | succ f ih =>
    obtain ⟨ihA, ihT, ihL, ihNE⟩ := ih
    refine ⟨?_, ?_, ?_, ?_⟩
    · intro ts v h
      cases ts with
      | nil => exact Option.noConfusion h
      | cons t r =>
        cases t
        case ident s =>
          rw [parseTermAtom_ident] at h
          rw [parseTermAtom_ident]
          cases r with
          | nil => exact h
          | cons t2 r2 =>
            cases t2
            case lparen =>
              rw [parseAfterIdent_lparen] at h ⊢
              obtain ⟨q, hq, hv⟩ := Option.map_eq_some'.mp h
              exact Option.map_eq_some'.mpr ⟨q, ihL _ _ hq, hv⟩
            all_goals exact h
        case lparen =>
          have h2 : (parseTermList op f r).map (fun p => (Term.tup p.1, p.2)) = some v := h
          obtain ⟨q, hq, hv⟩ := Option.map_eq_some'.mp h2
          show (parseTermList op (f + 1) r).map (fun p => (Term.tup p.1, p.2)) = some v
          exact Option.map_eq_some'.mpr ⟨q, ihL _ _ hq, hv⟩
        case natTok n => exact h
        case strTok s => exact h
        case underscore => exact h
        all_goals exact Option.noConfusion h
    · intro ts v h
      rw [parseTerm_succ] at h ⊢
      obtain ⟨p, hp, hb⟩ := Option.bind_eq_some.mp h
      refine Option.bind_eq_some.mpr ⟨p, ihA _ _ hp, ?_⟩
      obtain ⟨a, r⟩ := p
      cases r with
      | nil => exact hb
      | cons t r2 =>
        by_cases ht : t = op
        · subst ht
          rw [parseBinTail_op] at hb ⊢
          obtain ⟨q, hq, hv⟩ := Option.map_eq_some'.mp hb
          exact Option.map_eq_some'.mpr ⟨q, ihT _ _ hq, hv⟩
        · have hne : (t :: r2).head? ≠ some op := by simp [ht]
          rw [parseBinTail_not_op op f a hne] at hb
          rw [parseBinTail_not_op op (f + 1) a hne]
          exact hb
    · intro ts v h
      cases ts with
      | nil => exact ihNE _ _ h
      | cons t r =>
        cases t
        case rparen => exact h
        all_goals exact ihNE _ _ h
    · intro ts v h
      rw [parseTermListNE_succ] at h ⊢
      obtain ⟨p, hp, hl⟩ := Option.bind_eq_some.mp h
      refine Option.bind_eq_some.mpr ⟨p, ihT _ _ hp, ?_⟩
      obtain ⟨e, r⟩ := p
      cases r with
      | nil => exact Option.noConfusion hl
      | cons t r2 =>
        cases t
        case comma =>
          have h2 : (parseTermListNE op f r2).map (fun q => (e :: q.1, q.2)) = some v := hl
          obtain ⟨q, hq, hv⟩ := Option.map_eq_some'.mp h2
          show (parseTermListNE op (f + 1) r2).map (fun q => (e :: q.1, q.2)) = some v
          exact Option.map_eq_some'.mpr ⟨q, ihNE _ _ hq, hv⟩
        case rparen => exact hl
        all_goals exact Option.noConfusion hl

/-- Success of any of the four parsers is preserved by any fuel
increase, with the same result. -/
theorem parse_mono_le (op : Tok) {f1 f2 : Nat} (hle : f1 ≤ f2) :
    (∀ ts v, parseTermAtom op f1 ts = some v → parseTermAtom op f2 ts = some v) ∧
    (∀ ts v, parseTerm op f1 ts = some v → parseTerm op f2 ts = some v) ∧
    (∀ ts v, parseTermList op f1 ts = some v → parseTermList op f2 ts = some v) ∧
    (∀ ts v, parseTermListNE op f1 ts = some v → parseTermListNE op f2 ts = some v) := by
  induction hle with
  | refl => exact ⟨fun _ _ h => h, fun _ _ h => h, fun _ _ h => h, fun _ _ h => h⟩
  | step _ ih =>
    obtain ⟨a, t, l, ne⟩ := ih
    exact ⟨fun ts v hh => (parse_mono_succ op _).1 ts v (a ts v hh),
           fun ts v hh => (parse_mono_succ op _).2.1 ts v (t ts v hh),
           fun ts v hh => (parse_mono_succ op _).2.2.1 ts v (l ts v hh),
           fun ts v hh => (parse_mono_succ op _).2.2.2 ts v (ne ts v hh)⟩

theorem parseTerm_mono (op : Tok) {f1 f2 : Nat} (hle : f1 ≤ f2) {ts : List Tok}
    {v : Term × List Tok} (h : parseTerm op f1 ts = some v) : parseTerm op f2 ts = some v :=
  (parse_mono_le op hle).2.1 ts v h

theorem parseTermListNE_mono (op : Tok) {f1 f2 : Nat} (hle : f1 ≤ f2) {ts : List Tok}
    {v : List Term × List Tok} (h : parseTermListNE op f1 ts = some v) :
    parseTermListNE op f2 ts = some v :=
  (parse_mono_le op hle).2.2.2 ts v h

theorem some_pair_inj {α β : Type} {a c : α} {b d : β}
    (h : (some (a, b) : Option (α × β)) = some (c, d)) : a = c ∧ b = d := by
  injection h with h2
  exact ⟨congrArg Prod.fst h2, congrArg Prod.snd h2⟩

/-- Soundness of the four parsers: a successful parse consumes exactly
the tokens that the parsed fragment re-emits; the nonempty list parser
in addition returns a nonempty list. -/
theorem parse_sound (op : Tok) : ∀ fuel : Nat,
    (∀ ts e rest, parseTermAtom op fuel ts = some (e, rest) → ts = termToks op e ++ rest) ∧
    (∀ ts e rest, parseTerm op fuel ts = some (e, rest) → ts = termToks op e ++ rest) ∧
    (∀ ts es rest, parseTermList op fuel ts = some (es, rest) →
      ts = termToksList op es ++ Tok.rparen :: rest) ∧
    (∀ ts es rest, parseTermListNE op fuel ts = some (es, rest) →
      ts = termToksList op es ++ Tok.rparen :: rest ∧ es ≠ []) := by
  intro fuel
  induction fuel with
  | zero =>
    refine ⟨?_, ?_, ?_, ?_⟩ <;> intro ts x rest h <;> exact Option.noConfusion h
  | succ f ih =>
    obtain ⟨ihA, ihT, ihL, ihNE⟩ := ih
    refine ⟨?_, ?_, ?_, ?_⟩
    · intro ts e rest h
      cases ts with
      | nil => exact Option.noConfusion h
      | cons t r =>
        cases t
        case natTok n =>
          obtain ⟨rfl, rfl⟩ := some_pair_inj h
          simp [termToks]
        case strTok s =>
          obtain ⟨rfl, rfl⟩ := some_pair_inj h
          simp [termToks]
        case underscore =>
          obtain ⟨rfl, rfl⟩ := some_pair_inj h
          simp [termToks]
        case ident s =>
          rw [parseTermAtom_ident] at h
          cases r with
          | nil =>
            obtain ⟨rfl, rfl⟩ := some_pair_inj h
            simp [termToks]
          | cons t2 r2 =>
            cases t2
            case lparen =>
              rw [parseAfterIdent_lparen] at h
              obtain ⟨q, hq, hv⟩ := Option.map_eq_some'.mp h
              obtain ⟨rfl, rfl⟩ := some_pair_inj (congrArg some hv)
              have hr := ihL _ _ _ hq
              simp [termToks, hr]
            all_goals {
              rw [parseAfterIdent_not_lparen op f s (by simp)] at h
              obtain ⟨rfl, rfl⟩ := some_pair_inj h
              simp [termToks] }
        case lparen =>
          have h2 : (parseTermList op f r).map (fun p => (Term.tup p.1, p.2)) = some (e, rest) := h
          obtain ⟨q, hq, hv⟩ := Option.map_eq_some'.mp h2
          obtain ⟨rfl, rfl⟩ := some_pair_inj (congrArg some hv)
          have hr := ihL _ _ _ hq
          simp [termToks, hr]
        all_goals exact Option.noConfusion h
    · intro ts e rest h
      rw [parseTerm_succ] at h
      obtain ⟨p, hp, hb⟩ := Option.bind_eq_some.mp h
      obtain ⟨a, r⟩ := p
      have hts := ihA _ _ _ hp
      cases r with
      | nil =>
        obtain ⟨rfl, rfl⟩ := some_pair_inj hb
        simpa using hts
      | cons t r2 =>
        by_cases ht : t = op
        · subst ht
          rw [parseBinTail_op] at hb
          obtain ⟨q, hq, hv⟩ := Option.map_eq_some'.mp hb
          obtain ⟨rfl, rfl⟩ := some_pair_inj (congrArg some hv)
          have hr2 := ihT _ _ _ hq
          rw [hts, hr2]
          simp [termToks]
        · have hne : (t :: r2).head? ≠ some op := by simp [ht]
          rw [parseBinTail_not_op op f a hne] at hb
          obtain ⟨rfl, rfl⟩ := some_pair_inj hb
          exact hts
    · intro ts es rest h
      cases ts with
      | nil => exact ((ihNE _ _ _ h).1 : ([] : List Tok) = _)
      | cons t r =>
        cases t
        case rparen =>
          obtain ⟨rfl, rfl⟩ := some_pair_inj h
          simp [termToksList]
        all_goals exact (ihNE _ _ _ h).1
    · intro ts es rest h
      rw [parseTermListNE_succ] at h
      obtain ⟨p, hp, hl⟩ := Option.bind_eq_some.mp h
      obtain ⟨e1, r⟩ := p
      have hts := ihT _ _ _ hp
      cases r with
      | nil => exact Option.noConfusion hl
      | cons t r2 =>
        cases t
        case comma =>
          have h2 : (parseTermListNE op f r2).map (fun q => (e1 :: q.1, q.2)) = some (es, rest) := hl
          obtain ⟨q, hq, hv⟩ := Option.map_eq_some'.mp h2
          obtain ⟨rfl, rfl⟩ := some_pair_inj (congrArg some hv)
          obtain ⟨hr2, hqne⟩ := ihNE _ _ _ hq
          constructor
          · rw [hts, hr2, termToksList_cons op e1 hqne]
            simp
          · simp
        case rparen =>
          obtain ⟨rfl, rfl⟩ := some_pair_inj hl
          constructor
          · simpa [termToksList] using hts
          · simp
        all_goals exact Option.noConfusion hl

theorem goodOp_ne_lparen {op : Tok} (hop : goodOp op) : op ≠ Tok.lparen := by
  rcases hop with rfl | rfl <;> simp

theorem goodOp_comma {op : Tok} (hop : goodOp op) : Tok.comma ≠ op := by
  rcases hop with rfl | rfl <;> simp

theorem goodOp_rparen {op : Tok} (hop : goodOp op) : Tok.rparen ≠ op := by
  rcases hop with rfl | rfl <;> simp

/-- Completeness of the parsers on emitted tokens, the round-trip
heart of the development: all of the round-trip statements hold for
every fragment and fragment list, by strong induction on the size. -/
theorem parse_complete (op : Tok) (hop : goodOp op) : ∀ n : Nat,
    (∀ E, sizeT E ≤ n → StAtom op E ∧ StGraft op E ∧ StTerm op E) ∧
    (∀ es, sizeL es ≤ n → StListNE op es ∧ StList op es) := by
  intro n
  induction n with
  | zero =>
    constructor
    · intro E hE
      have := sizeT_pos E
      omega
    · intro es hes
      have := sizeL_pos es
      omega
  | succ n ih =>
    obtain ⟨ihT, ihL⟩ := ih
    constructor
    · intro E hE
      have hsz := sizeT_pos E
      have hAtom : StAtom op E := by
        intro fuel rest hfuel hnb hrest
        cases E with
        | litN m =>
          obtain ⟨f, rfl⟩ : ∃ f, fuel = f + 1 := ⟨fuel - 1, by simp [sizeT] at hfuel; omega⟩
          exact ⟨.litN m, rfl, rfl⟩
        | litS s =>
          obtain ⟨f, rfl⟩ : ∃ f, fuel = f + 1 := ⟨fuel - 1, by simp [sizeT] at hfuel; omega⟩
          exact ⟨.litS s, rfl, rfl⟩
        | hole =>
          obtain ⟨f, rfl⟩ : ∃ f, fuel = f + 1 := ⟨fuel - 1, by simp [sizeT] at hfuel; omega⟩
          exact ⟨.hole, rfl, rfl⟩
        | name x =>
          obtain ⟨f, rfl⟩ : ∃ f, fuel = f + 1 := ⟨fuel - 1, by simp [sizeT] at hfuel; omega⟩
          refine ⟨.name x, ?_, rfl⟩
          show parseTermAtom op (f + 1) (Tok.ident x :: rest) = some (.name x, rest)
          rw [parseTermAtom_ident, parseAfterIdent_not_lparen op f x hrest]
        | con g args =>
          obtain ⟨f, rfl⟩ : ∃ f, fuel = f + 1 := ⟨fuel - 1, by simp [sizeT] at hfuel; omega⟩
          simp [sizeT] at hfuel hE
          have hlist := (ihL args (by omega)).2
          obtain ⟨es2, hes2, htl⟩ := hlist f rest (by omega)
          refine ⟨.con g es2, ?_, by simp [termToks, htl]⟩
          have hstream : termToks op (Term.con g args) ++ rest =
              Tok.ident g :: Tok.lparen :: (termToksList op args ++ Tok.rparen :: rest) := by
            simp [termToks]
          rw [hstream, parseTermAtom_ident, parseAfterIdent_lparen]
          exact Option.map_eq_some'.mpr ⟨(es2, rest), hes2, rfl⟩
        | tup args =>
          obtain ⟨f, rfl⟩ : ∃ f, fuel = f + 1 := ⟨fuel - 1, by simp [sizeT] at hfuel; omega⟩
          simp [sizeT] at hfuel hE
          have hlist := (ihL args (by omega)).2
          obtain ⟨es2, hes2, htl⟩ := hlist f rest (by omega)
          refine ⟨.tup es2, ?_, by simp [termToks, htl]⟩
          have hstream : termToks op (Term.tup args) ++ rest =
              Tok.lparen :: (termToksList op args ++ Tok.rparen :: rest) := by
            simp [termToks]
          rw [hstream]
          show (parseTermList op f (termToksList op args ++ Tok.rparen :: rest)).map
            (fun p => (Term.tup p.1, p.2)) = some (Term.tup es2, rest)
          exact Option.map_eq_some'.mpr ⟨(es2, rest), hes2, rfl⟩
        | bin a b => exact hnb.elim
      have hGraft : StGraft op E := by
        intro fuel rest e2 r hparse
        cases fuel with
        | zero => exact Option.noConfusion hparse
        | succ f =>
          have hsplit : notBin E ∨ ∃ a b, E = Term.bin a b := by
            cases E <;> simp [notBin]
          rcases hsplit with hnb | ⟨a, b, rfl⟩
          · obtain ⟨E2, hE2, htoks⟩ := hAtom (f + sizeT E) (op :: rest) (by omega) hnb
              (by simpa using goodOp_ne_lparen hop)
            have hparse2 : parseTerm op (f + sizeT E) rest = some (e2, r) :=
              parseTerm_mono op (by omega) hparse
            refine ⟨.bin E2 e2, ?_, by simp [termToks, htoks]⟩
            have harith : f + 1 + sizeT E = (f + sizeT E) + 1 := by omega
            rw [harith, parseTerm_succ]
            refine Option.bind_eq_some.mpr ⟨(E2, op :: rest), hE2, ?_⟩
            rw [parseBinTail_op]
            exact Option.map_eq_some'.mpr ⟨(e2, r), hparse2, rfl⟩
          · have ha : sizeT a ≤ n := by
              have := sizeT_pos b
              simp [sizeT] at hE
              omega
            have hb : sizeT b ≤ n := by
              have := sizeT_pos a
              simp [sizeT] at hE
              omega
            have hGb := (ihT b hb).2.1
            have hGa := (ihT a ha).2.1
            obtain ⟨B2, hB2, hBt⟩ := hGb (f + 1) rest e2 r hparse
            obtain ⟨A2, hA2, hAt⟩ := hGa (f + 1 + sizeT b) (termToks op b ++ op :: rest) B2 r hB2
            refine ⟨A2, ?_, ?_⟩
            · have hstream : termToks op (Term.bin a b) ++ op :: rest =
                  termToks op a ++ op :: (termToks op b ++ op :: rest) := by
                simp [termToks]
              rw [hstream]
              refine parseTerm_mono op ?_ hA2
              simp [sizeT]
              omega
            · rw [hAt, hBt]
              simp [termToks]
      have hTerm : StTerm op E := by
        intro fuel rest hfuel hrop hrlp
        have hsplit : notBin E ∨ ∃ a b, E = Term.bin a b := by
          cases E <;> simp [notBin]
        rcases hsplit with hnb | ⟨a, b, rfl⟩
        · obtain ⟨f, rfl⟩ : ∃ f, fuel = f + 1 := ⟨fuel - 1, by omega⟩
          obtain ⟨E2, hE2, htoks⟩ := hAtom f rest (by omega) hnb hrlp
          refine ⟨E2, ?_, htoks⟩
          rw [parseTerm_succ]
          refine Option.bind_eq_some.mpr ⟨(E2, rest), hE2, ?_⟩
          exact parseBinTail_not_op op f E2 hrop
        · have ha : sizeT a ≤ n := by
            have := sizeT_pos b
            simp [sizeT] at hE
            omega
          have hb : sizeT b ≤ n := by
            have := sizeT_pos a
            simp [sizeT] at hE
            omega
          have hTb := (ihT b hb).2.2
          have hGa := (ihT a ha).2.1
          obtain ⟨B2, hB2, hBt⟩ := hTb (sizeT b + 1) rest (by omega) hrop hrlp
          obtain ⟨A2, hA2, hAt⟩ := hGa (sizeT b + 1) (termToks op b ++ rest) B2 rest hB2
          refine ⟨A2, ?_, ?_⟩
          · have hstream : termToks op (Term.bin a b) ++ rest =
                termToks op a ++ op :: (termToks op b ++ rest) := by
              simp [termToks]
            rw [hstream]
            refine parseTerm_mono op ?_ hA2
            simp [sizeT] at hfuel
            omega
          · rw [hAt, hBt]
            simp [termToks]
      exact ⟨hAtom, hGraft, hTerm⟩
    · intro es hes
      have hNE : StListNE op es := by
        intro fuel rest hne hfuel
        cases es with
        | nil => exact absurd rfl hne
        | cons e es2 =>
          obtain ⟨f, rfl⟩ : ∃ f, fuel = f + 1 :=
            ⟨fuel - 1, by have := sizeL_pos (e :: es2); omega⟩
          have hspos := sizeT_pos e
          have hs2pos := sizeL_pos es2
          simp [sizeL] at hfuel hes
          have hTe := (ihT e (by omega)).2.2
          cases es2 with
          | nil =>
            simp [sizeL] at hfuel
            obtain ⟨E2, hE2, htoks⟩ := hTe f (Tok.rparen :: rest) (by omega)
              (by simpa using goodOp_rparen hop) (by simp)
            refine ⟨[E2], ?_, by simp [termToksList, htoks]⟩
            have hstream : termToksList op [e] ++ Tok.rparen :: rest =
                termToks op e ++ Tok.rparen :: rest := by
              simp [termToksList]
            rw [hstream, parseTermListNE_succ]
            refine Option.bind_eq_some.mpr ⟨(E2, Tok.rparen :: rest), hE2, ?_⟩
            rfl
          | cons e2 es3 =>
            have h2pos := sizeT_pos e2
            have h3pos := sizeL_pos es3
            simp [sizeL] at hfuel hes
            have hNE2 := (ihL (e2 :: es3) (by simp [sizeL]; omega)).1
            obtain ⟨E2, hE2, htoks⟩ := hTe f
              (Tok.comma :: (termToksList op (e2 :: es3) ++ Tok.rparen :: rest))
              (by omega) (by simpa using goodOp_comma hop) (by simp)
            obtain ⟨es4, hes4, htoks4⟩ := hNE2 f rest (by simp) (by simp [sizeL]; omega)
            have hne4 : es4 ≠ [] := by
              intro hcon
              rw [hcon] at htoks4
              exact @termToksList_ne_nil op (e2 :: es3) (by simp)
                (by simpa [termToksList] using htoks4.symm)
            refine ⟨E2 :: es4, ?_, ?_⟩
            · have hstream : termToksList op (e :: e2 :: es3) ++ Tok.rparen :: rest =
                  termToks op e ++
                    (Tok.comma :: (termToksList op (e2 :: es3) ++ Tok.rparen :: rest)) := by
                simp [termToksList]
              rw [hstream, parseTermListNE_succ]
              refine Option.bind_eq_some.mpr ⟨(E2, _), hE2, ?_⟩
              show (parseTermListNE op f (termToksList op (e2 :: es3) ++ Tok.rparen :: rest)).map
                (fun q => (E2 :: q.1, q.2)) = some (E2 :: es4, rest)
              exact Option.map_eq_some'.mpr ⟨(es4, rest), hes4, rfl⟩
            · rw [termToksList_cons op E2 hne4, termToksList_cons op e (by simp), htoks, htoks4]
      have hL : StList op es := by
        intro fuel rest hfuel
        obtain ⟨f, rfl⟩ : ∃ f, fuel = f + 1 := ⟨fuel - 1, by have := sizeL_pos es; omega⟩
        cases es with
        | nil => exact ⟨[], rfl, rfl⟩
        | cons e es2 =>
          obtain ⟨es3, hes3, htoks3⟩ := hNE f rest (by simp) (by omega)
          refine ⟨es3, ?_, htoks3⟩
          have hhead : (termToksList op (e :: es2) ++ Tok.rparen :: rest).head? ≠
              some Tok.rparen := by
            obtain ⟨X, hX⟩ : ∃ X, termToksList op (e :: es2) = termToks op e ++ X := by
              cases es2 with
              | nil => exact ⟨[], by simp [termToksList]⟩
              | cons a bb => exact ⟨_, termToksList_cons op e (by simp)⟩
            obtain ⟨t, rr, hth, h1, -, -, -⟩ := termToks_head op e
            rw [hX, hth]
            simpa using h1
          rw [parseTermList_not_rparen op f hhead]
          exact hes3
      exact ⟨hNE, hL⟩

/-- The size measure is dominated by the emitted token count, so the
default fuel budget topFuel is always sufficient. -/
theorem size_le_toks (op : Tok) : ∀ n : Nat,
    (∀ E, sizeT E ≤ n → sizeT E + 2 ≤ 3 * (termToks op E).length) ∧
    (∀ es, sizeL es ≤ n → sizeL es ≤ 3 * (termToksList op es).length + 1) := by
  intro n
  induction n with
  | zero =>
    constructor
    · intro E hE
      have := sizeT_pos E
      omega
    · intro es hes
      have := sizeL_pos es
      omega
  | succ n ih =>
    obtain ⟨ihT, ihL⟩ := ih
    constructor
    · intro E hE
      cases E with
      | litN m => simp [sizeT, termToks]
      | litS s => simp [sizeT, termToks]
      | name x => simp [sizeT, termToks]
      | hole => simp [sizeT, termToks]
      | con g args =>
        simp only [sizeT, termToks] at hE ⊢
        have harg := ihL args (by have := sizeL_pos args; omega)
        simp only [List.length_cons, List.length_append, List.length_singleton]
        omega
      | tup args =>
        simp only [sizeT, termToks] at hE ⊢
        have harg := ihL args (by have := sizeL_pos args; omega)
        simp only [List.length_cons, List.length_append, List.length_singleton]
        omega
      | bin a b =>
        have hpa := sizeT_pos a
        have hpb := sizeT_pos b
        simp only [sizeT, termToks] at hE ⊢
        have ha := ihT a (by omega)
        have hb := ihT b (by omega)
        simp only [List.length_append, List.length_cons]
        omega
    · intro es hes
      cases es with
      | nil => simp [sizeL, termToksList]
      | cons e es2 =>
        have hpe := sizeT_pos e
        have hp2 := sizeL_pos es2
        simp only [sizeL] at hes ⊢
        have he := ihT e (by omega)
        cases es2 with
        | nil =>
          simp only [sizeL, termToksList]
          omega
        | cons e2 es3 =>
          have h2 := ihL (e2 :: es3) (by omega)
          rw [termToksList_cons op e (by simp)]
          simp only [List.length_append, List.length_cons]
          omega

/-- Round trip of the Expression wrapper at the fuel budget actually
used: on the emitted tokens of an expression followed by a suitable
continuation, parsing succeeds, consumes exactly the emitted tokens
and returns an expression with the same tokens. -/
theorem expressionParseComplete (e : Expression) (rest : List Tok)
    (h1 : rest.head? ≠ some Tok.plus) (h2 : rest.head? ≠ some Tok.lparen) :
    ∃ e2 : Expression, Expression.parse (e.toTokens ++ rest) = some (e2, rest) ∧
      e2.toTokens = e.toTokens := by
  have hst := ((parse_complete exprOp (Or.inl rfl) (sizeT e.val)).1 e.val le_rfl).2.2
  have hsz := ((size_le_toks exprOp (sizeT e.val)).1 e.val le_rfl)
  obtain ⟨E2, hE2, htoks⟩ := hst (topFuel (e.toTokens ++ rest)) rest
    (by
      show sizeT e.val < 3 * (e.toTokens ++ rest).length + 3
      have : (e.toTokens ++ rest).length = e.toTokens.length + rest.length :=
        List.length_append _ _
      have h3 : (e.toTokens).length = (termToks exprOp e.val).length := rfl
      omega)
    h1 h2
  exact ⟨⟨E2⟩, by
    rw [Expression.parse]
    exact Option.map_eq_some'.mpr ⟨(E2, rest), hE2, rfl⟩, htoks⟩

/-- Round trip of the Target wrapper, as for Expression. -/
theorem targetParseComplete (t : Target) (rest : List Tok)
    (h1 : rest.head? ≠ some Tok.pipe) (h2 : rest.head? ≠ some Tok.lparen) :
    ∃ t2 : Target, Target.parse (t.toTokens ++ rest) = some (t2, rest) ∧
      t2.toTokens = t.toTokens := by
  have hst := ((parse_complete patOp (Or.inr rfl) (sizeT t.val)).1 t.val le_rfl).2.2
  have hsz := ((size_le_toks patOp (sizeT t.val)).1 t.val le_rfl)
  obtain ⟨T2, hT2, htoks⟩ := hst (topFuel (t.toTokens ++ rest)) rest
    (by
      show sizeT t.val < 3 * (t.toTokens ++ rest).length + 3
      have : (t.toTokens ++ rest).length = t.toTokens.length + rest.length :=
        List.length_append _ _
      have h3 : (t.toTokens).length = (termToks patOp t.val).length := rfl
      omega)
    h1 h2
  exact ⟨⟨T2⟩, by
    rw [Target.parse]
    exact Option.map_eq_some'.mpr ⟨(T2, rest), hT2, rfl⟩, htoks⟩

/-- Soundness of the Expression wrapper parse: it consumes exactly the
tokens its result re-emits. -/
theorem expressionParseSound {ts : List Tok} {e : Expression} {rest : List Tok}
    (h : Expression.parse ts = some (e, rest)) : ts = e.toTokens ++ rest := by
  rw [Expression.parse] at h
  obtain ⟨p, hp, hv⟩ := Option.map_eq_some'.mp h
  obtain ⟨he, hr⟩ := some_pair_inj (congrArg some hv)
  subst he
  subst hr
  exact (parse_sound exprOp (topFuel ts)).2.1 ts p.1 p.2 hp

/-- Soundness of the Target wrapper parse. -/
theorem targetParseSound {ts : List Tok} {t : Target} {rest : List Tok}
    (h : Target.parse ts = some (t, rest)) : ts = t.toTokens ++ rest := by
  rw [Target.parse] at h
  obtain ⟨p, hp, hv⟩ := Option.map_eq_some'.mp h
  obtain ⟨he, hr⟩ := some_pair_inj (congrArg some hv)
  subst he
  subst hr
  exact (parse_sound patOp (topFuel ts)).2.1 ts p.1 p.2 hp

theorem expectComma_sound {r r2 : List Tok} (h : expectComma r = some r2) :
    r = Tok.comma :: r2 := by
  cases r with
  | nil => exact Option.noConfusion h
  | cons t rr =>
    cases t
    case comma =>
      injection h with h2
      rw [h2]
    all_goals exact Option.noConfusion h

/-- Completeness of the assert_pattern input parser on well-formed
input: the emitted tokens of an expression, a comma, and the emitted
tokens of a multi-pattern parse to a two-part invocation whose
components re-emit to exactly those tokens, with nothing left over. -/
theorem assertParseComplete (e : Expression) (t : Target) :
    ∃ i : AssertPatternInput,
      AssertPatternInput.parse (e.toTokens ++ Tok.comma :: t.toTokens) = some (i, []) ∧
      i.expression.toTokens = e.toTokens ∧ i.target.toTokens = t.toTokens := by
  obtain ⟨e2, he2, het⟩ := expressionParseComplete e (Tok.comma :: t.toTokens) (by simp) (by simp)
  obtain ⟨t2, ht2, htt⟩ := targetParseComplete t [] (by simp) (by simp)
  rw [List.append_nil] at ht2
  refine ⟨⟨e2, t2⟩, ?_, het, htt⟩
  rw [AssertPatternInput.parse]
  refine Option.bind_eq_some.mpr ⟨(e2, Tok.comma :: t.toTokens), he2, ?_⟩
  refine Option.bind_eq_some.mpr ⟨t.toTokens, rfl, ?_⟩
  exact Option.map_eq_some'.mpr ⟨(t2, []), ht2, rfl⟩

/-- Completeness of the coerce_pattern input parser on well-formed
input: expression, comma, multi-pattern, comma, result parse to a
three-part invocation whose components re-emit to exactly those
tokens, with nothing left over. -/
theorem coerceParseComplete (e : Expression) (t : Target) (r : Expression) :
    ∃ i : CoercePatternInput,
      CoercePatternInput.parse
        (e.toTokens ++ Tok.comma :: (t.toTokens ++ Tok.comma :: r.toTokens)) = some (i, []) ∧
      i.expression.toTokens = e.toTokens ∧ i.target.toTokens = t.toTokens ∧
      i.result.toTokens = r.toTokens := by
  obtain ⟨e2, he2, het⟩ := expressionParseComplete e
    (Tok.comma :: (t.toTokens ++ Tok.comma :: r.toTokens)) (by simp) (by simp)
  obtain ⟨t2, ht2, htt⟩ := targetParseComplete t (Tok.comma :: r.toTokens) (by simp) (by simp)
  obtain ⟨r2, hr2, hrt⟩ := expressionParseComplete r [] (by simp) (by simp)
  rw [List.append_nil] at hr2
  refine ⟨⟨e2, t2, r2⟩, ?_, het, htt, hrt⟩
  rw [CoercePatternInput.parse]
  refine Option.bind_eq_some.mpr
    ⟨(e2, Tok.comma :: (t.toTokens ++ Tok.comma :: r.toTokens)), he2, ?_⟩
  refine Option.bind_eq_some.mpr ⟨t.toTokens ++ Tok.comma :: r.toTokens, rfl, ?_⟩
  refine Option.bind_eq_some.mpr ⟨(t2, Tok.comma :: r.toTokens), ht2, ?_⟩
  refine Option.bind_eq_some.mpr ⟨r.toTokens, rfl, ?_⟩
  exact Option.map_eq_some'.mpr ⟨(r2, []), hr2, rfl⟩

/-- Soundness of the assert_pattern input parser: a successful parse
consumed exactly one expression, one comma and one multi-pattern, in
that fixed order. -/
theorem assertParseSound {ts : List Tok} {i : AssertPatternInput} {rest : List Tok}
    (h : AssertPatternInput.parse ts = some (i, rest)) :
    ts = i.expression.toTokens ++ Tok.comma :: (i.target.toTokens ++ rest) := by
  rw [AssertPatternInput.parse] at h
  obtain ⟨pe, hpe, h2⟩ := Option.bind_eq_some.mp h
  obtain ⟨r2, hr2, h3⟩ := Option.bind_eq_some.mp h2
  obtain ⟨pt, hpt, h4⟩ := Option.map_eq_some'.mp h3
  obtain ⟨hi, hrest⟩ := some_pair_inj (congrArg some h4)
  subst hi
  subst hrest
  rw [expressionParseSound hpe, expectComma_sound hr2, targetParseSound hpt]

/-- Soundness of the coerce_pattern input parser: a successful parse
consumed exactly one expression, a comma, one multi-pattern, a second
comma and one result expression, in that fixed order. -/
theorem coerceParseSound {ts : List Tok} {i : CoercePatternInput} {rest : List Tok}
    (h : CoercePatternInput.parse ts = some (i, rest)) :
    ts = i.expression.toTokens ++
      Tok.comma :: (i.target.toTokens ++ Tok.comma :: (i.result.toTokens ++ rest)) := by
  rw [CoercePatternInput.parse] at h
  obtain ⟨pe, hpe, h2⟩ := Option.bind_eq_some.mp h
  obtain ⟨r2, hr2, h3⟩ := Option.bind_eq_some.mp h2
  obtain ⟨pt, hpt, h4⟩ := Option.bind_eq_some.mp h3
  obtain ⟨r4, hr4, h5⟩ := Option.bind_eq_some.mp h4
  obtain ⟨pr, hpr, h6⟩ := Option.map_eq_some'.mp h5
  obtain ⟨hi, hrest⟩ := some_pair_inj (congrArg some h6)
  subst hi
  subst hrest
  rw [expressionParseSound hpe, expectComma_sound hr2, targetParseSound hpt,
    expectComma_sound hr4, expressionParseSound hpr]

theorem parseWhole_eq_ok {α : Type} (p : List Tok → Option (α × List Tok)) (ts : List Tok)
    (a : α) : parseWhole p ts = .ok a ↔ p ts = some (a, []) := by
  rw [parseWhole]
  cases h : p ts with
  | none => simp
  | some q =>
    obtain ⟨b, rest⟩ := q
    cases rest with
    | nil => simp
    | cons t r => simp

theorem parseWhole_ok_or_error {α : Type} (p : List Tok → Option (α × List Tok)) (ts : List Tok) :
    (∃ a, parseWhole p ts = .ok a) ∨ parseWhole p ts = .error .parseErr := by
  rw [parseWhole]
  cases h : p ts with
  | none => exact Or.inr rfl
  | some q =>
    obtain ⟨b, rest⟩ := q
    cases rest with
    | nil => exact Or.inl ⟨b, rfl⟩
    | cons t r => exact Or.inr rfl

/-- The wildcard arm pattern matches every value unconditionally,
introducing no bindings. -/
theorem matchT_hole (v : Value) : matchT .hole v = some [] := rfl

/-- Evaluation of a generated match factors through the single
evaluation of its scrutinee: once the scrutinee value is known, the
result depends only on that value and the arms. -/
theorem evalGenMatch_factor (env : List (String × Value)) (g : GenMatch) (v : Value)
    (h : evalT env g.scrutinee = .ok v) : evalGenMatch env g = evalArms env v g.arms := by
  rw [evalGenMatch, h]
  rfl

/-- When the first arm pattern matches, its body runs with the bindings
of the pattern in front of the outer environment. -/
theorem evalArms_first (env : List (String × Value)) (v : Value) (p : Term) (b : ArmBody)
    (rest : List (Term × ArmBody)) (bnds : List (String × Value))
    (h : matchT p v = some bnds) :
    evalArms env v ((p, b) :: rest) = evalBody (bnds ++ env) b := by
  rw [evalArms, h]

/-- When the first arm pattern fails, evaluation moves to the later
arms. -/
theorem evalArms_next (env : List (String × Value)) (v : Value) (p : Term) (b : ArmBody)
    (rest : List (Term × ArmBody)) (h : matchT p v = none) :
    evalArms env v ((p, b) :: rest) = evalArms env v rest := by
  rw [evalArms, h]

/-- C1: for every parsed invocation, the code generator emits a match
construct with exactly two arms: the first arm is the target pattern,
whose body is empty for the two-part form and is the result expression
for the three-part form, and the second arm is an unconditional
wildcard that panics with a fixed diagnostic string; no other arms are
ever generated. -/
theorem claim_C1 :
    ∀ (c : CoercePatternInput) (a : AssertPatternInput),
      c.toTokens = genMatchToks c.toMatch ∧
      a.toTokens = genMatchToks a.toMatch ∧
      c.toMatch.arms =
        [(c.target.val, ArmBody.blockExpr c.result.val),
         (Term.hole, ArmBody.panicWith coercePatternPanicMessage)] ∧
      a.toMatch.arms =
        [(a.target.val, ArmBody.blockEmpty),
         (Term.hole, ArmBody.panicWith assertPatternPanicMessage)] ∧
      (∀ v, matchT Term.hole v = some []) := by
  intro c a
  refine ⟨?_, ?_, rfl, rfl, fun v => rfl⟩
  · simp [CoercePatternInput.toTokens, genMatchToks, CoercePatternInput.toMatch, armToks,
      Target.toTokens, Expression.toTokens, panicCallToks, termToks]
  · simp [AssertPatternInput.toTokens, genMatchToks, AssertPatternInput.toMatch, armToks,
      Target.toTokens, Expression.toTokens, panicCallToks, termToks]

/-- C2: for the three-part form with expression Some(1), pattern
Some(y) and result y + 2, the generated code evaluates to 3; in
general the result expression is evaluated with every binding
introduced by the pattern visible in its scope, in front of (hence
shadowing) the outer environment. -/
theorem claim_C2 :
    (evalGenMatch []
      (CoercePatternInput.toMatch
        { expression := ⟨.con "Some" [.litN 1]⟩
          target := ⟨.con "Some" [.name "y"]⟩
          result := ⟨.bin (.name "y") (.litN 2)⟩ }) = .ok (.natV 3)) ∧
    (∀ (env : List (String × Value)) (c : CoercePatternInput) (v : Value)
        (bnds : List (String × Value)),
      evalT env c.expression.val = .ok v →
      matchT c.target.val v = some bnds →
      evalGenMatch env c.toMatch = evalT (bnds ++ env) c.result.val) := by
  constructor
  · rfl
  · intro env c v bnds h1 h2
    rw [evalGenMatch_factor env c.toMatch v h1]
    have harms : c.toMatch.arms =
        [(c.target.val, ArmBody.blockExpr c.result.val),
         (Term.hole, ArmBody.panicWith coercePatternPanicMessage)] := rfl
    rw [harms, evalArms_first env v c.target.val (ArmBody.blockExpr c.result.val) _ bnds h2]
    rfl

theorem claim_C2_witness :
    evalGenMatch [("z", Value.natV 7)]
      (CoercePatternInput.toMatch
        { expression := ⟨.con "Some" [.litN 1]⟩
          target := ⟨.con "Some" [.name "y"]⟩
          result := ⟨.bin (.name "y") (.litN 2)⟩ }) =
    evalT ([("y", Value.natV 1)] ++ [("z", Value.natV 7)])
      (Term.bin (.name "y") (.litN 2)) :=
  claim_C2.2 [("z", Value.natV 7)]
    { expression := ⟨.con "Some" [.litN 1]⟩
      target := ⟨.con "Some" [.name "y"]⟩
      result := ⟨.bin (.name "y") (.litN 2)⟩ }
    (Value.conV "Some" [Value.natV 1]) [("y", Value.natV 1)] rfl rfl

/-- C3: for any syntactically valid expression E and pattern P (in the
modelled fragment grammars), parsing the token sequence E, P succeeds,
consuming the whole input, and yields a two-part invocation whose
expression component re-emits to tokens equal to those of E and whose
pattern component re-emits to tokens equal to those of P. -/
theorem claim_C3 :
    ∀ (e : Expression) (t : Target),
      ∃ i : AssertPatternInput,
        parseWhole AssertPatternInput.parse (e.toTokens ++ Tok.comma :: t.toTokens) = .ok i ∧
        i.expression.toTokens = e.toTokens ∧ i.target.toTokens = t.toTokens := by
  intro e t
  obtain ⟨i, hp, h1, h2⟩ := assertParseComplete e t
  exact ⟨i, (parseWhole_eq_ok _ _ _).mpr hp, h1, h2⟩

/-- C4: every raw input that does not conform to the two-part grammar
makes assert_pattern fail with a syntax error and produce no output
tokens, and every raw input that does not conform to the three-part
grammar makes coerce_pattern fail with a syntax error and produce no
output tokens. -/
theorem claim_C4 :
    ∀ ts : List Tok,
      ((¬ ∃ (e : Expression) (t : Target), ts = e.toTokens ++ Tok.comma :: t.toTokens) →
        assert_pattern ts = .error .parseErr) ∧
      ((¬ ∃ (e : Expression) (t : Target) (r : Expression),
          ts = e.toTokens ++ Tok.comma :: (t.toTokens ++ Tok.comma :: r.toTokens)) →
        coerce_pattern ts = .error .parseErr) := by
  intro ts
  constructor
  · intro hno
    rcases parseWhole_ok_or_error AssertPatternInput.parse ts with ⟨i, hok⟩ | herr
    · exfalso
      apply hno
      have hp := (parseWhole_eq_ok _ _ _).mp hok
      have hs := assertParseSound hp
      exact ⟨i.expression, i.target, by simpa using hs⟩
    · rw [assert_pattern, herr]
      rfl
  · intro hno
    rcases parseWhole_ok_or_error CoercePatternInput.parse ts with ⟨i, hok⟩ | herr
    · exfalso
      apply hno
      have hp := (parseWhole_eq_ok _ _ _).mp hok
      have hs := coerceParseSound hp
      exact ⟨i.expression, i.target, i.result, by simpa using hs⟩
    · rw [coerce_pattern, herr]
      rfl

theorem claim_C4_witness :
    assert_pattern [Tok.ident "x"] = .error .parseErr ∧
    coerce_pattern [Tok.ident "x"] = .error .parseErr := by
  constructor
  · refine (claim_C4 [Tok.ident "x"]).1 ?_
    rintro ⟨e, t, h⟩
    have h1 : 0 < e.toTokens.length := List.length_pos.mpr (termToks_ne_nil exprOp e.val)
    have hlen := congrArg List.length h
    simp [List.length_append] at hlen
    omega
  · refine (claim_C4 [Tok.ident "x"]).2 ?_
    rintro ⟨e, t, r, h⟩
    have h1 : 0 < e.toTokens.length := List.length_pos.mpr (termToks_ne_nil exprOp e.val)
    have h2 : 0 < t.toTokens.length := List.length_pos.mpr (termToks_ne_nil patOp t.val)
    have hlen := congrArg List.length h
    simp [List.length_append] at hlen
    omega

/-- C5: the runtime failure diagnostic emitted for the two-part form
and the one emitted for the three-part form are never identical, so a
match failure can always be attributed to the correct invocation
form. -/
theorem claim_C5 :
    ∀ (a : AssertPatternInput) (c : CoercePatternInput),
      a.toMatch.arms.map Prod.snd =
        [ArmBody.blockEmpty, ArmBody.panicWith assertPatternPanicMessage] ∧
      c.toMatch.arms.map Prod.snd =
        [ArmBody.blockExpr c.result.val, ArmBody.panicWith coercePatternPanicMessage] ∧
      assertPatternPanicMessage ≠ coercePatternPanicMessage := by
  intro a c
  refine ⟨rfl, rfl, ?_⟩
  decide

/-- C6: for the two-part form with expression Some((1, "x")) and
pattern Some((1, _)), the generated code does not abort and yields the
unit value; with pattern Some((2, _)) it aborts with the assert-form
diagnostic, whose text names assert_pattern. -/
theorem claim_C6 :
    (evalGenMatch []
      (AssertPatternInput.toMatch
        { expression := ⟨.con "Some" [.tup [.litN 1, .litS "x"]]⟩
          target := ⟨.con "Some" [.tup [.litN 1, .hole]]⟩ }) = .ok (.tupV [])) ∧
    (evalGenMatch []
      (AssertPatternInput.toMatch
        { expression := ⟨.con "Some" [.tup [.litN 1, .litS "x"]]⟩
          target := ⟨.con "Some" [.tup [.litN 2, .hole]]⟩ }) =
      .error (.panicked assertPatternPanicMessage)) ∧
    (∃ pre, assertPatternPanicMessage = pre ++ "assert_pattern") :=
  ⟨rfl, rfl, ⟨"expression didn\x27t match target pattern in ", rfl⟩⟩

/-- C7: the three-part parser accepts exactly the inputs consisting of
one expression, a comma, one multi-pattern, a comma and one result
expression, in that fixed order, and a successful parse decomposes
the input in exactly that way; all other inputs fail. -/
theorem claim_C7 :
    ∀ ts : List Tok,
      ((∃ i, parseWhole CoercePatternInput.parse ts = .ok i) ↔
        (∃ (e : Expression) (t : Target) (r : Expression),
          ts = e.toTokens ++ Tok.comma :: (t.toTokens ++ Tok.comma :: r.toTokens))) ∧
      (∀ i, parseWhole CoercePatternInput.parse ts = .ok i →
        ts = i.expression.toTokens ++
          Tok.comma :: (i.target.toTokens ++ Tok.comma :: i.result.toTokens)) := by
  intro ts
  constructor
  · constructor
    · rintro ⟨i, hok⟩
      have hp := (parseWhole_eq_ok _ _ _).mp hok
      have hs := coerceParseSound hp
      exact ⟨i.expression, i.target, i.result, by simpa using hs⟩
    · rintro ⟨e, t, r, rfl⟩
      obtain ⟨i, hp, -, -, -⟩ := coerceParseComplete e t r
      exact ⟨i, (parseWhole_eq_ok _ _ _).mpr hp⟩
  · intro i hok
    have hp := (parseWhole_eq_ok _ _ _).mp hok
    have hs := coerceParseSound hp
    simpa using hs

theorem claim_C7_witness :
    [Tok.ident "x", Tok.comma, Tok.underscore, Tok.comma, Tok.natTok 1] =
      Expression.toTokens ⟨Term.name "x"⟩ ++
        Tok.comma :: (Target.toTokens ⟨Term.hole⟩ ++
          Tok.comma :: Expression.toTokens ⟨Term.litN 1⟩) :=
  (claim_C7 [Tok.ident "x", Tok.comma, Tok.underscore, Tok.comma, Tok.natTok 1]).2
    { expression := ⟨.name "x"⟩, target := ⟨.hole⟩, result := ⟨.litN 1⟩ } rfl

/-- C8: the whole transformation is a pure, deterministic function of
the input token sequence: equal inputs give equal structured parses
and equal outputs, for both macros; the embedding carries no state
between invocations. -/
theorem claim_C8 :
    ∀ ts1 ts2 : List Tok, ts1 = ts2 →
      assert_pattern ts1 = assert_pattern ts2 ∧
      coerce_pattern ts1 = coerce_pattern ts2 ∧
      parseWhole AssertPatternInput.parse ts1 = parseWhole AssertPatternInput.parse ts2 ∧
      parseWhole CoercePatternInput.parse ts1 = parseWhole CoercePatternInput.parse ts2 := by
  rintro ts1 ts2 rfl
  exact ⟨rfl, rfl, rfl, rfl⟩

theorem claim_C8_witness :
    assert_pattern [Tok.ident "x"] = assert_pattern [Tok.ident "x"] :=
  (claim_C8 [Tok.ident "x"] [Tok.ident "x"] rfl).1

/-- C9: code generation is total: whenever parsing succeeds, the whole
transformation succeeds and returns the generated tokens of the parsed
invocation, which are nonempty; there is no error path after
parsing. -/
theorem claim_C9 :
    ∀ ts : List Tok,
      (∀ i, parseWhole CoercePatternInput.parse ts = .ok i →
        coerce_pattern ts = .ok i.toTokens ∧ i.toTokens ≠ []) ∧
      (∀ i, parseWhole AssertPatternInput.parse ts = .ok i →
        assert_pattern ts = .ok i.toTokens ∧ i.toTokens ≠ []) := by
  intro ts
  constructor
  · intro i hok
    constructor
    · rw [coerce_pattern, hok]
      rfl
    · rw [CoercePatternInput.toTokens]
      simp
  · intro i hok
    constructor
    · rw [assert_pattern, hok]
      rfl
    · rw [AssertPatternInput.toTokens]
      simp

theorem claim_C9_witness :
    coerce_pattern [Tok.ident "x", Tok.comma, Tok.underscore, Tok.comma, Tok.natTok 1] =
      .ok (CoercePatternInput.toTokens
        { expression := ⟨.name "x"⟩, target := ⟨.hole⟩, result := ⟨.litN 1⟩ }) ∧
    CoercePatternInput.toTokens
      { expression := ⟨.name "x"⟩, target := ⟨.hole⟩, result := ⟨.litN 1⟩ } ≠ [] :=
  (claim_C9 [Tok.ident "x", Tok.comma, Tok.underscore, Tok.comma, Tok.natTok 1]).1
    { expression := ⟨.name "x"⟩, target := ⟨.hole⟩, result := ⟨.litN 1⟩ } rfl

/-- C10: in the generated output of either form the subject expression
tokens fill exactly one slot, the match scrutinee: the rest of the
output is a function of the target (and result) alone; and at runtime
the scrutinee is evaluated exactly once, the dispatch depending on the
scrutinee only through that single evaluated value. -/
theorem claim_C10 :
    ∀ (a : AssertPatternInput) (c : CoercePatternInput),
      a.toTokens = Tok.kwMatch :: (a.expression.toTokens ++ assertTailToks a.target) ∧
      c.toTokens = Tok.kwMatch :: (c.expression.toTokens ++ coerceTailToks c.target c.result) ∧
      (∀ (env : List (String × Value)) (g : GenMatch) (v : Value),
        evalT env g.scrutinee = .ok v → evalGenMatch env g = evalArms env v g.arms) := by
  intro a c
  exact ⟨rfl, rfl, fun env g v h => evalGenMatch_factor env g v h⟩

theorem claim_C10_witness :
    evalGenMatch [] { scrutinee := Term.litN 5, arms := [(Term.hole, ArmBody.blockEmpty)] } =
      evalArms [] (Value.natV 5) [(Term.hole, ArmBody.blockEmpty)] :=
  (claim_C10 { expression := ⟨.litN 0⟩, target := ⟨.hole⟩ }
    { expression := ⟨.litN 0⟩, target := ⟨.hole⟩, result := ⟨.litN 0⟩ }).2.2
    [] { scrutinee := Term.litN 5, arms := [(Term.hole, ArmBody.blockEmpty)] } (Value.natV 5) rfl
